import Mathlib

/-!
Shallow embedding of the Finchie statement service: the data model and
normalization logic of services/ledger-svc/internal/statements/models.go,
the in-memory storage backend of
services/creditapi/internal/statements/mock_repo.go, and the reconciliation
engine StatementService.SyncTransactions.

Modelling conventions:
ugo float64 amounts are modelled as rationals (the code only compares them
with 0 and copies them); Go time.Time is modelled as an instant paired with
a location name, with RFC3339 formatting abstracted to an injective
rendering of the instant and location; a Go map is modelled as an
association list with key-based lookup, insert and erase, whose list order
stands for the unspecified Go map iteration order; the opaque Extra
passthrough fields are omitted; a nil-pointer dereference is modelled as an
explicit panic result.
-/

set_option autoImplicit false

namespace Finchie

/-- Model of Go time.Time: an absolute instant (unix seconds) together with
a location used for presentation. -/
structure GoTime where
  unixSec : Int
  loc : String
deriving DecidableEq

/-- Model of time.Time.UTC(): same instant, location set to UTC. -/
def GoTime.utc (t : GoTime) : GoTime := { t with loc := "UTC" }

/-- Abstraction of Go time.Time.Format(time.RFC3339): an injective rendering
of the instant and location. The claims only depend on the rendering being a
function of the (instant, location) pair. -/
def GoTime.formatRFC3339 (t : GoTime) : String :=
  t.loc ++ "T" ++ toString t.unixSec

/-- PaymentSource from models.go. -/
structure PaymentSource where
  typ : String
  transactionID : String
  statementID : String
deriving DecidableEq

/-- Transaction from models.go (the opaque Extra field is omitted). -/
structure Transaction where
  id : String
  description : String
  amount : Rat
  date : GoTime
  statementID : String
  paymentSource : Option PaymentSource
deriving DecidableEq

/-- Transaction.Normalize from models.go: clears PaymentSource when it is
set and always returns without error. -/
def Transaction.Normalize (bd : Transaction) : Except String Transaction :=
  let bd1 := if bd.paymentSource ≠ none then { bd with paymentSource := none } else bd
  Except.ok bd1

/-- Statement from models.go (the opaque Extra field is omitted; Type and
SourceType are the underlying integers). -/
structure Statement where
  id : String
  typ : Int
  sourceType : Int
  sourceName : String
  sourceID : Option String
  totalAmount : Rat
  previousAmount : Option Rat
  previousPaid : Option Rat
  previousUnpaid : Option Rat
  currentAmount : Option Rat
  currency : String
  paymentDueDate : Option GoTime
  transactions : Option (List Transaction)
deriving DecidableEq

/-- Statement.GenerateID from models.go. The random token produced by
uuid.NewString() in the default branch is passed in as the argument fresh. -/
def Statement.GenerateID (fresh : String) (b : Statement) : Statement :=
  if b.id = "" then
    match b.sourceID with
    | some sid => { b with id := b.sourceName ++ "_" ++ sid }
    | none =>
      match b.paymentDueDate with
      | some d => { b with id := b.sourceName ++ "_" ++ d.utc.formatRFC3339 }
      | none => { b with id := b.sourceName ++ "_" ++ fresh }
  else b

/-- Result of Statement.Normalize: success with the mutated statement, a
returned error, or a runtime panic (nil-pointer dereference). -/
inductive NormResult where
  | ok : Statement → NormResult
  | error : String → NormResult
  | panic : NormResult
deriving DecidableEq

/-- The transaction loop of Statement.Normalize: each transaction gets the
parent statement id, is normalized, and is written back; the first failure
aborts with an error naming the index. -/
def normalizeTransactionList (stmtId : String) : Nat → List Transaction → Except String (List Transaction)
  | _, [] => Except.ok []
  | i, detail :: rest =>
    let detail1 := { detail with statementID := stmtId }
    match detail1.Normalize with
    | Except.error e => Except.error ("invalid transaction at index " ++ toString i ++ ": " ++ e)
    | Except.ok d =>
      match normalizeTransactionList stmtId (i + 1) rest with
      | Except.error e => Except.error e
      | Except.ok ds => Except.ok (d :: ds)

/-- Statement.Normalize from models.go. Validation, id generation, the
transaction loop, and the synthetic total-amount transaction. When the
transaction list ends up empty and paymentDueDate is nil, the Go expression
b.PaymentDueDate.UTC() dereferences a nil pointer: modelled as panic. -/
def Statement.Normalize (fresh : String) (b : Statement) : NormResult :=
  if b.sourceName = "" ∨ b.totalAmount ≤ 0 ∨ b.currency = "" then
    NormResult.error "invalid statement: missing required fields"
  else
    let b1 := b.GenerateID fresh
    let ts0 := match b1.transactions with
      | none => []
      | some ts => ts
    match normalizeTransactionList b1.id 0 ts0 with
    | Except.error e => NormResult.error e
    | Except.ok ts =>
      if ts.length = 0 ∧ 0 < b1.totalAmount then
        match b1.paymentDueDate with
        | none => NormResult.panic
        | some d =>
          let syntheticTx : Transaction :=
            { id := b1.id, description := "Total Amount", amount := b1.totalAmount,
              date := d.utc, statementID := b1.id, paymentSource := none }
          NormResult.ok { b1 with transactions := some ([syntheticTx]) }
      else NormResult.ok { b1 with transactions := some ts }

/-! The Go maps of the in-memory backend, as association lists. -/

/-- Lookup in a Go map modelled as an association list. -/
def mapLookup {α : Type} : List (String × α) → String → Option α
  | [], _ => none
  | p :: rest, k => if p.1 = k then some p.2 else mapLookup rest k

/-- Erase from a Go map modelled as an association list. -/
def mapErase {α : Type} : List (String × α) → String → List (String × α)
  | [], _ => []
  | p :: rest, k => if p.1 = k then mapErase rest k else p :: mapErase rest k

/-- Go map assignment m[k] = v: the new binding, with any old binding for k
removed. -/
def mapInsert {α : Type} (m : List (String × α)) (k : String) (v : α) : List (String × α) :=
  (k, v) :: mapErase m k

/-- InMemoryRepo from mock_repo.go: two keyed mappings (the locks guard
single map operations and are not modelled). -/
structure InMemoryRepo where
  statements : List (String × Statement)
  transactions : List (String × Transaction)
deriving DecidableEq

/-- InMemoryRepo.GetStatement. -/
def InMemoryRepo.GetStatement (r : InMemoryRepo) (id : String) : Option Statement :=
  mapLookup r.statements id

/-- InMemoryRepo.UpsertStatement. -/
def InMemoryRepo.UpsertStatement (r : InMemoryRepo) (statement : Statement) : InMemoryRepo :=
  { r with statements := mapInsert r.statements statement.id statement }

/-- InMemoryRepo.GetTransactions: the stored transactions whose StatementID
matches, in map iteration order. -/
def InMemoryRepo.GetTransactions (r : InMemoryRepo) (statementId : String) : List Transaction :=
  (r.transactions.map Prod.snd).filter (fun tx => tx.statementID = statementId)

/-- InMemoryRepo.UpsertTransaction. -/
def InMemoryRepo.UpsertTransaction (r : InMemoryRepo) (tx : Transaction) : InMemoryRepo :=
  { r with transactions := mapInsert r.transactions tx.id tx }

/-- InMemoryRepo.DeleteTransaction: error when the id is absent, otherwise
remove the entry. The repository state is returned alongside the optional
error, mirroring the mutable receiver. -/
def InMemoryRepo.DeleteTransaction (r : InMemoryRepo) (id : String) : InMemoryRepo × Option String :=
  if (mapLookup r.transactions id).isSome then
    ({ r with transactions := mapErase r.transactions id }, none)
  else (r, some "transaction not found")

/-- Well-formedness of the transactions map, maintained by the Go code: map
keys are unique (Go map semantics) and every entry is stored under its
transaction id (UpsertTransaction always uses tx.ID as the key). -/
def InMemoryRepo.WF (r : InMemoryRepo) : Prop :=
  (r.transactions.map Prod.fst).Nodup ∧ ∀ p ∈ r.transactions, p.2.id = p.1

instance (r : InMemoryRepo) : Decidable r.WF := by
  unfold InMemoryRepo.WF
  infer_instance

/-- The StatementRepository capability set used by SyncTransactions, over an
explicit state: each operation returns the new state and an optional error. -/
structure RepoOps (σ : Type) where
  GetTransactions : σ → String → List Transaction × Option String
  UpsertTransaction : σ → Transaction → σ × Option String
  DeleteTransaction : σ → String → σ × Option String

/-- The upsert loop of SyncTransactions: normalize each incoming transaction
in caller order, upsert it, and record its id as kept; the first error
aborts. -/
def syncUpsertLoop {σ : Type} (ops : RepoOps σ) : σ → List String → List Transaction → σ × List String × Option String
  | r, kept, [] => (r, kept, none)
  | r, kept, tx :: rest =>
    match tx.Normalize with
    | Except.error e => (r, kept, some e)
    | Except.ok tx1 =>
      match ops.UpsertTransaction r tx1 with
      | (r1, some e) => (r1, kept, some e)
      | (r1, none) => syncUpsertLoop ops r1 (kept ++ [tx1.id]) rest

/-- The delete loop of SyncTransactions: delete every previously persisted
transaction whose id was not kept; the first error aborts. -/
def syncDeleteLoop {σ : Type} (ops : RepoOps σ) : σ → List String → List Transaction → σ × Option String
  | r, _, [] => (r, none)
  | r, kept, c :: rest =>
    if c.id ∈ kept then syncDeleteLoop ops r kept rest
    else
      match ops.DeleteTransaction r c.id with
      | (r1, some e) => (r1, some e)
      | (r1, none) => syncDeleteLoop ops r1 kept rest

/-- StatementService.SyncTransactions from the service file: read the
persisted transactions for the statement, upsert all incoming transactions,
then delete the stale ones. -/
def SyncTransactions {σ : Type} (ops : RepoOps σ) (r : σ) (statementID : String) (transactions : List Transaction) : σ × Option String :=
  match ops.GetTransactions r statementID with
  | (_, some e) => (r, some e)
  | (current, none) =>
    match syncUpsertLoop ops r [] transactions with
    | (r1, _, some e) => (r1, some e)
    | (r1, kept, none) => syncDeleteLoop ops r1 kept current

/-- The repository capability set of the in-memory backend: reads and
upserts never fail; delete fails on an absent id. -/
def inMemoryOps : RepoOps InMemoryRepo :=
  { GetTransactions := fun r sid => (r.GetTransactions sid, none)
    UpsertTransaction := fun r tx => (r.UpsertTransaction tx, none)
    DeleteTransaction := fun r id => r.DeleteTransaction id }

/-- A fallible storage backend for the failure-semantics claims: the
in-memory state plus a budget of mutations that still succeed; the first
mutation past the budget fails with a storage error and changes nothing. -/
structure FaultRepo where
  base : InMemoryRepo
  budget : Nat
deriving DecidableEq

/-- The capability set of the fallible backend: reads always succeed and
consume no budget; each upsert or delete consumes one unit of budget, and
fails with a storage error when the budget is exhausted. -/
def faultOps : RepoOps FaultRepo :=
  { GetTransactions := fun r sid => (r.base.GetTransactions sid, none)
    UpsertTransaction := fun r tx =>
      match r.budget with
      | 0 => (r, some "storage failure")
      | Nat.succ n => ({ base := r.base.UpsertTransaction tx, budget := n }, none)
    DeleteTransaction := fun r id =>
      match r.budget with
      | 0 => (r, some "storage failure")
      | Nat.succ n =>
        match r.base.DeleteTransaction id with
        | (b, e) => ({ base := b, budget := n }, e) }

/-- What Transaction.Normalize does to a transaction. -/
def normalizedTx (tx : Transaction) : Transaction := { tx with paymentSource := none }

/-- One storage mutation performed by SyncTransactions. -/
inductive Mutation where
  | upsert : Transaction → Mutation
  | delete : String → Mutation
deriving DecidableEq

/-- Effect of one successful mutation on the in-memory state. -/
def applyMutation (r : InMemoryRepo) : Mutation → InMemoryRepo
  | Mutation.upsert tx => r.UpsertTransaction tx
  | Mutation.delete id => { r with transactions := mapErase r.transactions id }

/-- Effect of a sequence of successful mutations. -/
def applyMutations (r : InMemoryRepo) (ms : List Mutation) : InMemoryRepo :=
  ms.foldl applyMutation r

/-- The persisted transactions for sid that are stale with respect to the
incoming list: their ids do not occur among the incoming ids. -/
def staleTransactions (r : InMemoryRepo) (sid : String) (txs : List Transaction) : List Transaction :=
  (r.GetTransactions sid).filter (fun c => ¬ c.id ∈ txs.map Transaction.id)

/-- The sequence of storage mutations a fault-free run of SyncTransactions
performs from state r: the upserts of the normalized incoming transactions
in caller order, then the deletes of the stale persisted transactions in
read order. -/
def plannedMutations (r : InMemoryRepo) (sid : String) (txs : List Transaction) : List Mutation :=
  txs.map (fun tx => Mutation.upsert (normalizedTx tx))
    ++ (staleTransactions r sid txs).map (fun c => Mutation.delete c.id)

/-- Folding the upsert half of the mutation sequence. -/
def applyUpserts (r : InMemoryRepo) (txs : List Transaction) : InMemoryRepo :=
  txs.foldl (fun s tx => s.UpsertTransaction (normalizedTx tx)) r

/-- Folding the delete half of the mutation sequence. -/
def applyDeletes (r : InMemoryRepo) (ds : List Transaction) : InMemoryRepo :=
  ds.foldl (fun s c => { s with transactions := mapErase s.transactions c.id }) r

/-! Lemmas about the association-list model of Go maps. -/

theorem mapLookup_mapErase_self {α : Type} (m : List (String × α)) (k : String) :
    mapLookup (mapErase m k) k = none := by
  induction m with
  | nil => rfl
  | cons p rest ih =>
    by_cases h : p.1 = k
    · simp [mapErase, h, ih]
    · simp [mapErase, mapLookup, h, ih]

theorem mapLookup_mapErase_other {α : Type} (m : List (String × α)) (k k' : String)
    (h : k' ≠ k) : mapLookup (mapErase m k) k' = mapLookup m k' := by
  have hkk : ¬ k = k' := fun hk => h hk.symm
  induction m with
  | nil => rfl
  | cons p rest ih =>
    by_cases hp : p.1 = k
    · simp [mapErase, mapLookup, hp, hkk, ih]
    · by_cases hq : p.1 = k'
      · simp [mapErase, mapLookup, hp, hq, h]
      · simp [mapErase, mapLookup, hp, hq, ih]

theorem mapLookup_mapInsert_self {α : Type} (m : List (String × α)) (k : String) (v : α) :
    mapLookup (mapInsert m k v) k = some v := by
  simp [mapInsert, mapLookup]

theorem mapLookup_mapInsert_other {α : Type} (m : List (String × α)) (k k' : String) (v : α)
    (h : k' ≠ k) : mapLookup (mapInsert m k v) k' = mapLookup m k' := by
  have : ¬ (k = k') := fun hk => h hk.symm
  simp [mapInsert, mapLookup, this, mapLookup_mapErase_other m k k' h]

theorem mem_of_mem_mapErase {α : Type} {m : List (String × α)} {k : String}
    {p : String × α} (h : p ∈ mapErase m k) : p ∈ m := by
  induction m with
  | nil => exact absurd h (by simp [mapErase])
  | cons q rest ih =>
    by_cases hq : q.1 = k
    · simp only [mapErase, if_pos hq] at h
      exact List.mem_cons_of_mem q (ih h)
    · simp only [mapErase, if_neg hq, List.mem_cons] at h
      rcases h with h | h
      · exact h ▸ List.mem_cons_self q rest
      · exact List.mem_cons_of_mem q (ih h)

theorem keys_mapErase_sublist {α : Type} (m : List (String × α)) (k : String) :
    ((mapErase m k).map Prod.fst).Sublist (m.map Prod.fst) := by
  induction m with
  | nil => simp [mapErase]
  | cons q rest ih =>
    by_cases hq : q.1 = k
    · simp only [mapErase, if_pos hq, List.map_cons]
      exact ih.cons q.1
    · simp only [mapErase, if_neg hq, List.map_cons]
      exact ih.cons₂ q.1

theorem not_mem_keys_mapErase {α : Type} (m : List (String × α)) (k : String) :
    k ∉ (mapErase m k).map Prod.fst := by
  induction m with
  | nil => simp [mapErase]
  | cons q rest ih =>
    by_cases hq : q.1 = k
    · simp only [mapErase, if_pos hq]
      exact ih
    · simp only [mapErase, if_neg hq, List.map_cons, List.mem_cons]
      intro h
      rcases h with h | h
      · exact hq h.symm
      · exact ih h

theorem nodup_keys_mapErase {α : Type} {m : List (String × α)} (k : String)
    (h : (m.map Prod.fst).Nodup) : ((mapErase m k).map Prod.fst).Nodup :=
  (keys_mapErase_sublist m k).nodup h

theorem nodup_keys_mapInsert {α : Type} {m : List (String × α)} (k : String) (v : α)
    (h : (m.map Prod.fst).Nodup) : ((mapInsert m k v).map Prod.fst).Nodup := by
  simp only [mapInsert, List.map_cons]
  exact List.nodup_cons.mpr ⟨not_mem_keys_mapErase m k, nodup_keys_mapErase k h⟩

theorem mapLookup_eq_some_of_mem {α : Type} {m : List (String × α)} {k : String} {v : α}
    (hnd : (m.map Prod.fst).Nodup) (h : (k, v) ∈ m) : mapLookup m k = some v := by
  induction m with
  | nil => exact absurd h (List.not_mem_nil _)
  | cons q rest ih =>
    simp only [List.map_cons, List.nodup_cons] at hnd
    rcases List.mem_cons.mp h with h | h
    · simp [mapLookup, ← h]
    · have hk : k ∈ rest.map Prod.fst := List.mem_map.mpr ⟨(k, v), h, rfl⟩
      have hq : ¬ q.1 = k := by
        intro hqk
        exact hnd.1 (hqk ▸ hk)
      simp [mapLookup, hq, ih hnd.2 h]

theorem mem_of_mapLookup_eq_some {α : Type} {m : List (String × α)} {k : String} {v : α}
    (h : mapLookup m k = some v) : (k, v) ∈ m := by
  induction m with
  | nil => exact absurd h (by simp [mapLookup])
  | cons q rest ih =>
    by_cases hq : q.1 = k
    · simp only [mapLookup, if_pos hq, Option.some.injEq] at h
      have : q = (k, v) := Prod.ext hq h
      exact this ▸ List.mem_cons_self q rest
    · simp only [mapLookup, if_neg hq] at h
      exact List.mem_cons_of_mem q (ih h)

theorem mapLookup_isSome_iff {α : Type} (m : List (String × α)) (k : String) :
    (mapLookup m k).isSome ↔ k ∈ m.map Prod.fst := by
  induction m with
  | nil => simp [mapLookup]
  | cons q rest ih =>
    by_cases hq : q.1 = k
    · simp [mapLookup, hq]
    · simp only [mapLookup, if_neg hq, List.map_cons, List.mem_cons]
      rw [ih]
      constructor
      · exact fun h => Or.inr h
      · intro h
        rcases h with h | h
        · exact absurd h.symm hq
        · exact h

/-! Lemmas about normalization. -/

theorem normalizedTx_id (tx : Transaction) : (normalizedTx tx).id = tx.id := rfl

theorem normalizedTx_statementID (tx : Transaction) :
    (normalizedTx tx).statementID = tx.statementID := rfl

theorem Transaction.Normalize_eq (tx : Transaction) :
    tx.Normalize = Except.ok (normalizedTx tx) := by
  cases tx with
  | mk i de am da st ps => cases ps <;> simp [Transaction.Normalize, normalizedTx]

theorem normalizeTransactionList_eq (sid : String) (i : Nat) (l : List Transaction) :
    normalizeTransactionList sid i l =
      Except.ok (l.map (fun t => { t with statementID := sid, paymentSource := none })) := by
  induction l generalizing i with
  | nil => rfl
  | cons t rest ih =>
    simp only [normalizeTransactionList, Transaction.Normalize_eq, ih, normalizedTx,
      List.map_cons]

/-! Lemmas about the fold forms of the reconciliation mutations. -/

theorem applyUpserts_nil (r : InMemoryRepo) : applyUpserts r [] = r := rfl

theorem applyUpserts_cons (r : InMemoryRepo) (t : Transaction) (l : List Transaction) :
    applyUpserts r (t :: l) = applyUpserts (r.UpsertTransaction (normalizedTx t)) l := rfl

theorem applyUpserts_append (r : InMemoryRepo) (l₁ l₂ : List Transaction) :
    applyUpserts r (l₁ ++ l₂) = applyUpserts (applyUpserts r l₁) l₂ := by
  simp [applyUpserts, List.foldl_append]

theorem applyDeletes_nil (r : InMemoryRepo) : applyDeletes r [] = r := rfl

theorem applyDeletes_cons (r : InMemoryRepo) (c : Transaction) (l : List Transaction) :
    applyDeletes r (c :: l) =
      applyDeletes { r with transactions := mapErase r.transactions c.id } l := rfl

theorem applyDeletes_append (r : InMemoryRepo) (l₁ l₂ : List Transaction) :
    applyDeletes r (l₁ ++ l₂) = applyDeletes (applyDeletes r l₁) l₂ := by
  simp [applyDeletes, List.foldl_append]

theorem applyMutations_upserts (r : InMemoryRepo) (txs : List Transaction) :
    applyMutations r (txs.map (fun tx => Mutation.upsert (normalizedTx tx))) =
      applyUpserts r txs := by
  induction txs generalizing r with
  | nil => rfl
  | cons t rest ih => simp [applyMutations, applyUpserts, applyMutation] at ih ⊢; exact ih _

theorem applyMutations_deletes (r : InMemoryRepo) (ds : List Transaction) :
    applyMutations r (ds.map (fun c => Mutation.delete c.id)) = applyDeletes r ds := by
  induction ds generalizing r with
  | nil => rfl
  | cons c rest ih => simp [applyMutations, applyDeletes, applyMutation] at ih ⊢; exact ih _

theorem applyMutations_append (r : InMemoryRepo) (l₁ l₂ : List Mutation) :
    applyMutations r (l₁ ++ l₂) = applyMutations (applyMutations r l₁) l₂ := by
  simp [applyMutations, List.foldl_append]

/-! Well-formedness is preserved by the storage mutations. -/

theorem WF_UpsertTransaction {r : InMemoryRepo} (tx : Transaction) (h : r.WF) :
    (r.UpsertTransaction tx).WF := by
  refine ⟨nodup_keys_mapInsert tx.id tx h.1, ?_⟩
  intro p hp
  simp only [InMemoryRepo.UpsertTransaction, mapInsert, List.mem_cons] at hp
  rcases hp with hp | hp
  · rw [hp]
  · exact h.2 p (mem_of_mem_mapErase hp)

theorem WF_eraseTransaction {r : InMemoryRepo} (k : String) (h : r.WF) :
    InMemoryRepo.WF { r with transactions := mapErase r.transactions k } := by
  refine ⟨nodup_keys_mapErase k h.1, ?_⟩
  intro p hp
  exact h.2 p (mem_of_mem_mapErase hp)

theorem WF_applyUpserts {r : InMemoryRepo} (txs : List Transaction) (h : r.WF) :
    (applyUpserts r txs).WF := by
  induction txs generalizing r with
  | nil => exact h
  | cons t rest ih => exact ih (WF_UpsertTransaction (normalizedTx t) h)

theorem WF_applyDeletes {r : InMemoryRepo} (ds : List Transaction) (h : r.WF) :
    (applyDeletes r ds).WF := by
  induction ds generalizing r with
  | nil => exact h
  | cons c rest ih => exact ih (WF_eraseTransaction c.id h)

/-! Lookup after the fold forms. -/

theorem lookup_applyUpserts_not_mem {r : InMemoryRepo} (txs : List Transaction) (x : String)
    (hx : ¬ x ∈ txs.map Transaction.id) :
    mapLookup (applyUpserts r txs).transactions x = mapLookup r.transactions x := by
  induction txs generalizing r with
  | nil => rfl
  | cons t rest ih =>
    simp only [List.map_cons, List.mem_cons, not_or] at hx
    rw [applyUpserts_cons, ih hx.2]
    exact mapLookup_mapInsert_other r.transactions (normalizedTx t).id x (normalizedTx t) hx.1

theorem lookup_applyUpserts_last {r : InMemoryRepo} (l₁ l₂ : List Transaction)
    (t : Transaction) (x : String) (ht : t.id = x) (hl : ∀ u ∈ l₂, u.id ≠ x) :
    mapLookup (applyUpserts r (l₁ ++ t :: l₂)).transactions x = some (normalizedTx t) := by
  rw [applyUpserts_append, applyUpserts_cons]
  rw [lookup_applyUpserts_not_mem l₂ x ?hnot]
  case hnot =>
    intro hmem
    rcases List.mem_map.mp hmem with ⟨u, hu, hux⟩
    exact hl u hu hux
  have hkey : (normalizedTx t).id = x := ht
  rw [← hkey]
  exact mapLookup_mapInsert_self _ _ _

theorem exists_last_decomp {β : Type} (f : β → String) (l : List β) (x : String)
    (h : x ∈ l.map f) : ∃ l₁ t l₂, l = l₁ ++ t :: l₂ ∧ f t = x ∧ ∀ u ∈ l₂, f u ≠ x := by
  induction l with
  | nil => simp at h
  | cons a rest ih =>
    by_cases hr : x ∈ rest.map f
    · rcases ih hr with ⟨l₁, t, l₂, heq, hft, hl⟩
      exact ⟨a :: l₁, t, l₂, by rw [heq]; rfl, hft, hl⟩
    · have hfa : f a = x := by
        simp only [List.map_cons, List.mem_cons] at h
        rcases h with h | h
        · exact h.symm
        · exact absurd h hr
      refine ⟨[], a, rest, rfl, hfa, ?_⟩
      intro u hu hux
      exact hr (List.mem_map.mpr ⟨u, hu, hux⟩)

theorem lookup_applyDeletes_not_mem {r : InMemoryRepo} (ds : List Transaction) (x : String)
    (hx : ¬ x ∈ ds.map Transaction.id) :
    mapLookup (applyDeletes r ds).transactions x = mapLookup r.transactions x := by
  induction ds generalizing r with
  | nil => rfl
  | cons c rest ih =>
    simp only [List.map_cons, List.mem_cons, not_or] at hx
    rw [applyDeletes_cons, ih hx.2]
    exact mapLookup_mapErase_other r.transactions c.id x (hx.1)

theorem lookup_applyDeletes_mem {r : InMemoryRepo} (ds : List Transaction) (x : String)
    (hx : x ∈ ds.map Transaction.id) :
    mapLookup (applyDeletes r ds).transactions x = none := by
  induction ds generalizing r with
  | nil => simp at hx
  | cons c rest ih =>
    by_cases hr : x ∈ rest.map Transaction.id
    · rw [applyDeletes_cons]
      exact ih hr
    · have hcx : c.id = x := by
        simp only [List.map_cons, List.mem_cons] at hx
        rcases hx with hx | hx
        · exact hx.symm
        · exact absurd hx hr
      rw [applyDeletes_cons, lookup_applyDeletes_not_mem rest x hr, hcx]
      exact mapLookup_mapErase_self r.transactions x

/-! Lemmas about GetTransactions on well-formed repositories. -/

theorem mem_GetTransactions_lookup {r : InMemoryRepo} {sid : String} {c : Transaction}
    (hWF : r.WF) (hc : c ∈ r.GetTransactions sid) :
    mapLookup r.transactions c.id = some c ∧ c.statementID = sid := by
  simp only [InMemoryRepo.GetTransactions, List.mem_filter, decide_eq_true_eq] at hc
  obtain ⟨hcm, hsid⟩ := hc
  rcases List.mem_map.mp hcm with ⟨p, hp, hpc⟩
  have hid : c.id = p.1 := by rw [← hpc]; exact hWF.2 p hp
  have hpair : (c.id, c) = p := Prod.ext hid (by rw [← hpc])
  refine ⟨mapLookup_eq_some_of_mem hWF.1 (hpair ▸ hp), hsid⟩

theorem nodup_ids_GetTransactions {r : InMemoryRepo} (hWF : r.WF) (sid : String) :
    ((r.GetTransactions sid).map Transaction.id).Nodup := by
  have h1 : (r.GetTransactions sid).Sublist (r.transactions.map Prod.snd) :=
    List.filter_sublist _
  have h2 := h1.map Transaction.id
  have h3 : (r.transactions.map Prod.snd).map Transaction.id = r.transactions.map Prod.fst := by
    rw [List.map_map]
    exact List.map_congr_left (fun p hp => hWF.2 p hp)
  exact h2.nodup (h3 ▸ hWF.1)

theorem mem_ids_GetTransactions {r : InMemoryRepo} (hWF : r.WF) (sid x : String) :
    x ∈ (r.GetTransactions sid).map Transaction.id ↔
      ∃ v, mapLookup r.transactions x = some v ∧ v.statementID = sid := by
  constructor
  · intro hx
    rcases List.mem_map.mp hx with ⟨c, hc, hcx⟩
    obtain ⟨hl, hs⟩ := mem_GetTransactions_lookup hWF hc
    exact ⟨c, hcx ▸ hl, hs⟩
  · rintro ⟨v, hl, hs⟩
    have hm := mem_of_mapLookup_eq_some hl
    have hvid : v.id = x := hWF.2 (x, v) hm
    have hvmem : v ∈ r.transactions.map Prod.snd := List.mem_map.mpr ⟨(x, v), hm, rfl⟩
    have hvfil : v ∈ r.GetTransactions sid := by
      simp only [InMemoryRepo.GetTransactions, List.mem_filter, decide_eq_true_eq]
      exact ⟨hvmem, hs⟩
    exact List.mem_map.mpr ⟨v, hvfil, hvid⟩

/-- Success condition for a run of the delete loop: the transactions to be
deleted have pairwise distinct ids and each of them is currently stored. -/
def Deletable (r : InMemoryRepo) (ds : List Transaction) : Prop :=
  (ds.map Transaction.id).Nodup ∧ ∀ c ∈ ds, (mapLookup r.transactions c.id).isSome

/-! The two loops of SyncTransactions over the in-memory backend. -/

theorem inMemoryOps_GetTransactions (r : InMemoryRepo) (sid : String) :
    inMemoryOps.GetTransactions r sid = (r.GetTransactions sid, none) := rfl

theorem inMemoryOps_UpsertTransaction (r : InMemoryRepo) (tx : Transaction) :
    inMemoryOps.UpsertTransaction r tx = (r.UpsertTransaction tx, none) := rfl

theorem inMemoryOps_DeleteTransaction (r : InMemoryRepo) (i : String) :
    inMemoryOps.DeleteTransaction r i = r.DeleteTransaction i := rfl

theorem syncUpsertLoop_inMemory (r : InMemoryRepo) (kept : List String) (txs : List Transaction) :
    syncUpsertLoop inMemoryOps r kept txs =
      (applyUpserts r txs, kept ++ txs.map Transaction.id, none) := by
  induction txs generalizing r kept with
  | nil => simp [syncUpsertLoop, applyUpserts]
  | cons t rest ih =>
    simp only [syncUpsertLoop, Transaction.Normalize_eq, inMemoryOps_UpsertTransaction]
    rw [ih]
    simp [applyUpserts_cons, normalizedTx_id]

theorem syncDeleteLoop_inMemory (r : InMemoryRepo) (kept : List String) (cs : List Transaction)
    (hdel : Deletable r (cs.filter (fun c => ¬ c.id ∈ kept))) :
    syncDeleteLoop inMemoryOps r kept cs =
      (applyDeletes r (cs.filter (fun c => ¬ c.id ∈ kept)), none) := by
  induction cs generalizing r with
  | nil => simp [syncDeleteLoop, applyDeletes]
  | cons c rest ih =>
    by_cases hc : c.id ∈ kept
    · have hfil : (c :: rest).filter (fun c => ¬ c.id ∈ kept) =
          rest.filter (fun c => ¬ c.id ∈ kept) := by
        simp [List.filter_cons, hc]
      rw [hfil] at hdel
      simp only [syncDeleteLoop, if_pos hc]
      rw [ih r hdel, hfil]
    · have hfil : (c :: rest).filter (fun c => ¬ c.id ∈ kept) =
          c :: rest.filter (fun c => ¬ c.id ∈ kept) := by
        simp [List.filter_cons, hc]
      rw [hfil] at hdel
      have hlk : (mapLookup r.transactions c.id).isSome :=
        hdel.2 c (List.mem_cons_self _ _)
      have hnd := hdel.1
      simp only [List.map_cons, List.nodup_cons] at hnd
      have hdel1 : Deletable { r with transactions := mapErase r.transactions c.id }
          (rest.filter (fun c => ¬ c.id ∈ kept)) := by
        refine ⟨hnd.2, ?_⟩
        intro c' hc'
        have hne : c'.id ≠ c.id := by
          intro he
          exact hnd.1 (he ▸ List.mem_map.mpr ⟨c', hc', rfl⟩)
        have := mapLookup_mapErase_other r.transactions c.id c'.id hne
        rw [this]
        exact hdel.2 c' (List.mem_cons_of_mem c hc')
      simp only [syncDeleteLoop, if_neg hc, inMemoryOps_DeleteTransaction,
        InMemoryRepo.DeleteTransaction, if_pos hlk]
      rw [ih _ hdel1, hfil, applyDeletes_cons]

/-- The stale transactions are deletable after all upserts have been applied:
their ids are pairwise distinct and still stored. -/
theorem stale_deletable {r : InMemoryRepo} (hWF : r.WF) (sid : String) (txs : List Transaction) :
    Deletable (applyUpserts r txs) (staleTransactions r sid txs) := by
  constructor
  · have hsub : (staleTransactions r sid txs).Sublist (r.GetTransactions sid) :=
      List.filter_sublist _
    exact (hsub.map Transaction.id).nodup (nodup_ids_GetTransactions hWF sid)
  · intro c hc
    have hmem : c ∈ r.GetTransactions sid ∧ ¬ c.id ∈ txs.map Transaction.id := by
      have := List.mem_filter.mp hc
      refine ⟨this.1, ?_⟩
      have h2 := this.2
      simpa using h2
    obtain ⟨hl, _⟩ := mem_GetTransactions_lookup hWF hmem.1
    rw [lookup_applyUpserts_not_mem txs c.id hmem.2, hl]
    rfl

/-- The delete-loop argument of SyncTransactions coincides with the stale
transactions. -/
theorem stale_eq_filter (r : InMemoryRepo) (sid : String) (txs : List Transaction) :
    staleTransactions r sid txs =
      (r.GetTransactions sid).filter (fun c => ¬ c.id ∈ txs.map Transaction.id) := rfl

/-- Master equation: over the in-memory backend a sync call always succeeds,
and the final state applies all upserts and then all stale deletes. -/
theorem sync_inMemory_eq (r : InMemoryRepo) (sid : String) (txs : List Transaction)
    (hWF : r.WF) :
    SyncTransactions inMemoryOps r sid txs =
      (applyDeletes (applyUpserts r txs) (staleTransactions r sid txs), none) := by
  have h2 := syncDeleteLoop_inMemory (applyUpserts r txs) (txs.map Transaction.id)
    (r.GetTransactions sid) (by rw [← stale_eq_filter]; exact stale_deletable hWF sid txs)
  simp only [SyncTransactions, inMemoryOps_GetTransactions, syncUpsertLoop_inMemory,
    List.nil_append, h2, ← stale_eq_filter]

theorem WF_sync {r : InMemoryRepo} (hWF : r.WF) (sid : String) (txs : List Transaction) :
    (SyncTransactions inMemoryOps r sid txs).1.WF := by
  rw [sync_inMemory_eq r sid txs hWF]
  exact WF_applyDeletes _ (WF_applyUpserts _ hWF)

theorem sync_lookup_incoming {r : InMemoryRepo} (hWF : r.WF) (sid x : String)
    (txs : List Transaction) (hx : x ∈ txs.map Transaction.id) :
    ∃ t ∈ txs, t.id = x ∧
      mapLookup (SyncTransactions inMemoryOps r sid txs).1.transactions x =
        some (normalizedTx t) := by
  rcases exists_last_decomp Transaction.id txs x hx with ⟨l₁, t, l₂, heq, hid, hlast⟩
  refine ⟨t, by rw [heq]; exact List.mem_append_right _ (List.mem_cons_self _ _), hid, ?_⟩
  rw [sync_inMemory_eq r sid txs hWF]
  have hxstale : ¬ x ∈ (staleTransactions r sid txs).map Transaction.id := by
    intro hmem
    rcases List.mem_map.mp hmem with ⟨c, hc, hcx⟩
    have hnc := (List.mem_filter.mp hc).2
    simp only [decide_eq_true_eq] at hnc
    exact hnc (hcx ▸ hx)
  rw [lookup_applyDeletes_not_mem _ x hxstale, heq]
  exact lookup_applyUpserts_last l₁ l₂ t x hid hlast

theorem sync_lookup_stale {r : InMemoryRepo} (hWF : r.WF) {sid x : String}
    {txs : List Transaction} (hx : x ∈ (staleTransactions r sid txs).map Transaction.id) :
    mapLookup (SyncTransactions inMemoryOps r sid txs).1.transactions x = none := by
  rw [sync_inMemory_eq r sid txs hWF]
  exact lookup_applyDeletes_mem _ x hx

theorem sync_lookup_other {r : InMemoryRepo} (hWF : r.WF) {sid x : String}
    {txs : List Transaction} (hx1 : ¬ x ∈ txs.map Transaction.id)
    (hx2 : ¬ x ∈ (staleTransactions r sid txs).map Transaction.id) :
    mapLookup (SyncTransactions inMemoryOps r sid txs).1.transactions x =
      mapLookup r.transactions x := by
  rw [sync_inMemory_eq r sid txs hWF]
  rw [lookup_applyDeletes_not_mem _ x hx2, lookup_applyUpserts_not_mem _ x hx1]

theorem sync_ids_iff {r : InMemoryRepo} (hWF : r.WF) (sid : String) (txs : List Transaction)
    (hsid : ∀ t ∈ txs, t.statementID = sid) (x : String) :
    x ∈ ((SyncTransactions inMemoryOps r sid txs).1.GetTransactions sid).map Transaction.id ↔
      x ∈ txs.map Transaction.id := by
  have hWF1 : (SyncTransactions inMemoryOps r sid txs).1.WF := WF_sync hWF sid txs
  rw [mem_ids_GetTransactions hWF1 sid x]
  constructor
  · rintro ⟨v, hl, hs⟩
    by_contra hx
    by_cases hstale : x ∈ (staleTransactions r sid txs).map Transaction.id
    · rw [sync_lookup_stale hWF hstale] at hl
      exact Option.noConfusion hl
    · rw [sync_lookup_other hWF hx hstale] at hl
      have hv := mem_of_mapLookup_eq_some hl
      have hvid : v.id = x := hWF.2 (x, v) hv
      have hvmem : v ∈ r.GetTransactions sid := by
        simp only [InMemoryRepo.GetTransactions, List.mem_filter, decide_eq_true_eq]
        exact ⟨List.mem_map.mpr ⟨(x, v), hv, rfl⟩, hs⟩
      have hvstale : v ∈ staleTransactions r sid txs := by
        simp only [staleTransactions, List.mem_filter, decide_eq_true_eq]
        exact ⟨hvmem, by rw [hvid]; exact hx⟩
      exact hstale (List.mem_map.mpr ⟨v, hvstale, hvid⟩)
  · intro hx
    rcases sync_lookup_incoming hWF sid x txs hx with ⟨t, htmem, htid, hl⟩
    exact ⟨normalizedTx t, hl, by rw [normalizedTx_statementID]; exact hsid t htmem⟩

/-- C1: one successful sync makes the persisted id set for sid equal the
incoming id set, and a second sync with the same input succeeds and leaves
that id set unchanged. The hypotheses state that the persisted state is a
Go map state (unique keys, each transaction keyed by its id) and that every
incoming transaction carries statement_id = sid. -/
theorem C1_sync_convergent (r : InMemoryRepo) (sid : String) (T : List Transaction)
    (hWF : r.WF) (hT : ∀ t ∈ T, t.statementID = sid) :
    ∃ r1, SyncTransactions inMemoryOps r sid T = (r1, none) ∧
      ((r1.GetTransactions sid).map Transaction.id).toFinset =
        (T.map Transaction.id).toFinset ∧
      ∃ r2, SyncTransactions inMemoryOps r1 sid T = (r2, none) ∧
        ((r2.GetTransactions sid).map Transaction.id).toFinset =
          ((r1.GetTransactions sid).map Transaction.id).toFinset := by
  have hWF1 : (SyncTransactions inMemoryOps r sid T).1.WF := WF_sync hWF sid T
  refine ⟨(SyncTransactions inMemoryOps r sid T).1, ?_, ?_, ?_⟩
  · rw [sync_inMemory_eq r sid T hWF]
  · ext x
    simp only [List.mem_toFinset]
    exact sync_ids_iff hWF sid T hT x
  · refine ⟨(SyncTransactions inMemoryOps (SyncTransactions inMemoryOps r sid T).1 sid T).1,
      ?_, ?_⟩
    · rw [sync_inMemory_eq _ sid T hWF1]
    · ext x
      simp only [List.mem_toFinset]
      rw [sync_ids_iff hWF1 sid T hT x, sync_ids_iff hWF sid T hT x]

/-- A concrete transaction used by witnesses. -/
def mkTx (i sid : String) : Transaction :=
  { id := i, description := "", amount := 1, date := { unixSec := 0, loc := "UTC" },
    statementID := sid, paymentSource := none }

/-- A concrete persisted state used by the C1 witness: two transactions of
statement s (one stale, one kept) and one of another statement. -/
def w1repo : InMemoryRepo :=
  { statements := [],
    transactions := [("old", mkTx "old" "s"), ("keep", mkTx "keep" "s"), ("oth", mkTx "oth" "z")] }

/-- Witness for C1 at a concrete persisted state and incoming list. -/
theorem C1_sync_convergent_witness :
    ∃ r1, SyncTransactions inMemoryOps w1repo "s" [mkTx "keep" "s", mkTx "new" "s"] = (r1, none) ∧
      ((r1.GetTransactions "s").map Transaction.id).toFinset =
        (([mkTx "keep" "s", mkTx "new" "s"].map Transaction.id)).toFinset ∧
      ∃ r2, SyncTransactions inMemoryOps r1 "s" [mkTx "keep" "s", mkTx "new" "s"] = (r2, none) ∧
        ((r2.GetTransactions "s").map Transaction.id).toFinset =
          ((r1.GetTransactions "s").map Transaction.id).toFinset :=
  C1_sync_convergent w1repo "s" [mkTx "keep" "s", mkTx "new" "s"] (by decide) (by decide)

/-! The two loops of SyncTransactions over the fallible backend. -/

theorem faultOps_GetTransactions (rf : FaultRepo) (sid : String) :
    faultOps.GetTransactions rf sid = (rf.base.GetTransactions sid, none) := rfl

theorem faultOps_UpsertTransaction_zero (b : InMemoryRepo) (tx : Transaction) :
    faultOps.UpsertTransaction ⟨b, 0⟩ tx = (⟨b, 0⟩, some "storage failure") := rfl

theorem faultOps_UpsertTransaction_succ (b : InMemoryRepo) (tx : Transaction) (n : Nat) :
    faultOps.UpsertTransaction ⟨b, n + 1⟩ tx = (⟨b.UpsertTransaction tx, n⟩, none) := rfl

theorem faultOps_DeleteTransaction_zero (b : InMemoryRepo) (i : String) :
    faultOps.DeleteTransaction ⟨b, 0⟩ i = (⟨b, 0⟩, some "storage failure") := rfl

theorem faultOps_DeleteTransaction_succ (b : InMemoryRepo) (i : String) (n : Nat) :
    faultOps.DeleteTransaction ⟨b, n + 1⟩ i =
      (⟨(b.DeleteTransaction i).1, n⟩, (b.DeleteTransaction i).2) := rfl

theorem syncUpsertLoop_fault_enough (r : InMemoryRepo) (b : Nat) (kept : List String)
    (txs : List Transaction) (h : txs.length ≤ b) :
    syncUpsertLoop faultOps ⟨r, b⟩ kept txs =
      (⟨applyUpserts r txs, b - txs.length⟩, kept ++ txs.map Transaction.id, none) := by
  induction txs generalizing r b kept with
  | nil => simp [syncUpsertLoop, applyUpserts]
  | cons t rest ih =>
    cases b with
    | zero => exact absurd h (by simp)
    | succ n =>
      simp only [syncUpsertLoop, Transaction.Normalize_eq, faultOps_UpsertTransaction_succ]
      rw [ih _ n _ (Nat.le_of_succ_le_succ h)]
      simp [applyUpserts_cons, normalizedTx_id, Nat.succ_sub_succ]

theorem syncUpsertLoop_fault_short (r : InMemoryRepo) (b : Nat) (kept : List String)
    (txs : List Transaction) (h : b < txs.length) :
    syncUpsertLoop faultOps ⟨r, b⟩ kept txs =
      (⟨applyUpserts r (txs.take b), 0⟩, kept ++ (txs.take b).map Transaction.id,
        some "storage failure") := by
  induction txs generalizing r b kept with
  | nil => exact absurd h (by simp)
  | cons t rest ih =>
    cases b with
    | zero =>
      simp [syncUpsertLoop, Transaction.Normalize_eq, faultOps_UpsertTransaction_zero,
        applyUpserts]
    | succ n =>
      simp only [syncUpsertLoop, Transaction.Normalize_eq, faultOps_UpsertTransaction_succ]
      rw [ih _ n _ (Nat.lt_of_succ_lt_succ h)]
      simp [List.take_succ_cons, applyUpserts_cons, normalizedTx_id]

theorem syncDeleteLoop_fault_short (r : InMemoryRepo) (b : Nat) (kept : List String)
    (cs : List Transaction)
    (hdel : Deletable r (cs.filter (fun c => ¬ c.id ∈ kept)))
    (h : b < (cs.filter (fun c => ¬ c.id ∈ kept)).length) :
    syncDeleteLoop faultOps ⟨r, b⟩ kept cs =
      (⟨applyDeletes r ((cs.filter (fun c => ¬ c.id ∈ kept)).take b), 0⟩,
        some "storage failure") := by
  induction cs generalizing r b with
  | nil => exact absurd h (by simp)
  | cons c rest ih =>
    by_cases hc : c.id ∈ kept
    · have hfil : (c :: rest).filter (fun c => ¬ c.id ∈ kept) =
          rest.filter (fun c => ¬ c.id ∈ kept) := by
        simp [List.filter_cons, hc]
      rw [hfil] at hdel h ⊢
      simp only [syncDeleteLoop, if_pos hc]
      exact ih r b hdel h
    · have hfil : (c :: rest).filter (fun c => ¬ c.id ∈ kept) =
          c :: rest.filter (fun c => ¬ c.id ∈ kept) := by
        simp [List.filter_cons, hc]
      rw [hfil] at hdel h ⊢
      cases b with
      | zero =>
        simp [syncDeleteLoop, if_neg hc, faultOps_DeleteTransaction_zero, applyDeletes]
      | succ n =>
        have hlk : (mapLookup r.transactions c.id).isSome :=
          hdel.2 c (List.mem_cons_self _ _)
        have hnd := hdel.1
        simp only [List.map_cons, List.nodup_cons] at hnd
        have hdel1 : Deletable { r with transactions := mapErase r.transactions c.id }
            (rest.filter (fun c => ¬ c.id ∈ kept)) := by
          refine ⟨hnd.2, ?_⟩
          intro c' hc'
          have hne : c'.id ≠ c.id := by
            intro he
            exact hnd.1 (he ▸ List.mem_map.mpr ⟨c', hc', rfl⟩)
          rw [mapLookup_mapErase_other r.transactions c.id c'.id hne]
          exact hdel.2 c' (List.mem_cons_of_mem c hc')
        simp only [syncDeleteLoop, if_neg hc, faultOps_DeleteTransaction_succ,
          InMemoryRepo.DeleteTransaction, if_pos hlk]
        rw [ih _ n hdel1 (Nat.lt_of_succ_lt_succ h)]
        rw [List.take_succ_cons, applyDeletes_cons]

theorem plannedMutations_length (r : InMemoryRepo) (sid : String) (txs : List Transaction) :
    (plannedMutations r sid txs).length =
      txs.length + (staleTransactions r sid txs).length := by
  simp [plannedMutations]

/-- C6: over the fallible backend, when the k-th storage mutation fails the
sync call returns the storage error immediately, and the resulting storage
state is exactly the first k-1 planned mutations applied to the initial
state, with no rollback. The budget k-1 makes exactly the k-th mutation
fail. -/
theorem C6_fault_prefix (r : InMemoryRepo) (sid : String) (txs : List Transaction) (k : Nat)
    (hWF : r.WF) (hk1 : 1 ≤ k) (hk2 : k ≤ (plannedMutations r sid txs).length) :
    SyncTransactions faultOps ⟨r, k - 1⟩ sid txs =
      (⟨applyMutations r ((plannedMutations r sid txs).take (k - 1)), 0⟩,
        some "storage failure") := by
  have hlen := plannedMutations_length r sid txs
  have hlt : k - 1 < txs.length + (staleTransactions r sid txs).length := by omega
  simp only [SyncTransactions, faultOps_GetTransactions]
  by_cases hcase : k - 1 < txs.length
  · rw [syncUpsertLoop_fault_short r (k - 1) [] txs hcase]
    have htake : (plannedMutations r sid txs).take (k - 1) =
        (txs.take (k - 1)).map (fun tx => Mutation.upsert (normalizedTx tx)) := by
      simp only [plannedMutations]
      rw [List.take_append_eq_append_take]
      have hz : k - 1 - (txs.map (fun tx => Mutation.upsert (normalizedTx tx))).length = 0 := by
        simp only [List.length_map]
        omega
      rw [hz]
      simp [List.map_take]
    rw [htake, applyMutations_upserts]
  · have hge : txs.length ≤ k - 1 := Nat.le_of_not_lt hcase
    rw [syncUpsertLoop_fault_enough r (k - 1) [] txs hge]
    simp only [List.nil_append]
    have hdel : Deletable (applyUpserts r txs)
        ((r.GetTransactions sid).filter (fun c => ¬ c.id ∈ txs.map Transaction.id)) := by
      rw [← stale_eq_filter]
      exact stale_deletable hWF sid txs
    have hblt : k - 1 - txs.length <
        ((r.GetTransactions sid).filter (fun c => ¬ c.id ∈ txs.map Transaction.id)).length := by
      rw [← stale_eq_filter]
      omega
    rw [syncDeleteLoop_fault_short _ _ _ _ hdel hblt]
    have htake : (plannedMutations r sid txs).take (k - 1) =
        txs.map (fun tx => Mutation.upsert (normalizedTx tx)) ++
          ((staleTransactions r sid txs).take (k - 1 - txs.length)).map
            (fun c => Mutation.delete c.id) := by
      simp only [plannedMutations]
      rw [List.take_append_eq_append_take]
      rw [List.take_of_length_le (by simp only [List.length_map]; omega)]
      simp [List.map_take]
    rw [htake, applyMutations_append, applyMutations_upserts, applyMutations_deletes]
    rw [stale_eq_filter]

/-- A concrete persisted state used by the C6 witness: one stale transaction
of statement s. -/
def w6repo : InMemoryRepo :=
  { statements := [], transactions := [("old", mkTx "old" "s")] }

/-- Witness for C6: with two incoming transactions and one stale one, the
third mutation (the delete) fails and exactly the two upserts remain
applied. -/
theorem C6_fault_prefix_witness :
    SyncTransactions faultOps ⟨w6repo, 3 - 1⟩ "s" [mkTx "a" "s", mkTx "b" "s"] =
      (⟨applyMutations w6repo
          ((plannedMutations w6repo "s" [mkTx "a" "s", mkTx "b" "s"]).take (3 - 1)), 0⟩,
        some "storage failure") :=
  C6_fault_prefix w6repo "s" [mkTx "a" "s", mkTx "b" "s"] 3 (by decide) (by decide) (by decide)

/-- C7: DeleteTransaction returns the not-found error exactly when no
transaction with that id is stored; on success only that entry is removed
and everything else is unchanged; on the not-found error the state is
unchanged. -/
theorem C7_delete_transaction (r : InMemoryRepo) (i : String) :
    ((r.DeleteTransaction i).2 = some "transaction not found" ↔
      mapLookup r.transactions i = none) ∧
    (mapLookup r.transactions i = none → (r.DeleteTransaction i).1 = r) ∧
    ((mapLookup r.transactions i).isSome →
      (r.DeleteTransaction i).2 = none ∧
      mapLookup (r.DeleteTransaction i).1.transactions i = none ∧
      (∀ x, x ≠ i →
        mapLookup (r.DeleteTransaction i).1.transactions x = mapLookup r.transactions x) ∧
      (r.DeleteTransaction i).1.statements = r.statements) := by
  by_cases h : (mapLookup r.transactions i).isSome
  · simp only [InMemoryRepo.DeleteTransaction, if_pos h]
    refine ⟨?_, ?_, ?_⟩
    · constructor
      · intro he
        exact Option.noConfusion he
      · intro hn
        rw [hn] at h
        exact absurd h (by simp)
    · intro hn
      rw [hn] at h
      exact absurd h (by simp)
    · intro _
      refine ⟨by trivial, mapLookup_mapErase_self _ _, ?_, by trivial⟩
      intro x hx
      exact mapLookup_mapErase_other _ _ _ hx
  · have hn : mapLookup r.transactions i = none := by
      cases hop : mapLookup r.transactions i
      · rfl
      · rw [hop] at h
        exact absurd rfl h
    simp only [InMemoryRepo.DeleteTransaction, if_neg h]
    exact ⟨by simp [hn], fun _ => by trivial, fun hs => absurd hs h⟩

/-- A concrete persisted state used by the C7 witness. -/
def w7repo : InMemoryRepo :=
  { statements := [], transactions := [("t1", mkTx "t1" "s")] }

/-- Witness for C7: deleting a stored id succeeds, removes it, and leaves an
unrelated key unchanged. -/
theorem C7_delete_transaction_witness :
    (w7repo.DeleteTransaction "t1").2 = none ∧
    mapLookup (w7repo.DeleteTransaction "t1").1.transactions "t1" = none ∧
    mapLookup (w7repo.DeleteTransaction "t1").1.transactions "zz" =
      mapLookup w7repo.transactions "zz" :=
  ⟨((C7_delete_transaction w7repo "t1").2.2 (by decide)).1,
   ((C7_delete_transaction w7repo "t1").2.2 (by decide)).2.1,
   ((C7_delete_transaction w7repo "t1").2.2 (by decide)).2.2.1 "zz" (by decide)⟩

/-- C9: UpsertStatement changes only the statements entry keyed by the
statement id and leaves the transactions map intact; UpsertTransaction is
symmetric. -/
theorem C9_upsert_frame (r : InMemoryRepo) (s : Statement) (t : Transaction) :
    (mapLookup (r.UpsertStatement s).statements s.id = some s ∧
      (∀ x, x ≠ s.id →
        mapLookup (r.UpsertStatement s).statements x = mapLookup r.statements x) ∧
      (r.UpsertStatement s).transactions = r.transactions) ∧
    (mapLookup (r.UpsertTransaction t).transactions t.id = some t ∧
      (∀ x, x ≠ t.id →
        mapLookup (r.UpsertTransaction t).transactions x = mapLookup r.transactions x) ∧
      (r.UpsertTransaction t).statements = r.statements) := by
  refine ⟨⟨mapLookup_mapInsert_self _ _ _, ?_, rfl⟩,
    ⟨mapLookup_mapInsert_self _ _ _, ?_, rfl⟩⟩
  · intro x hx
    exact mapLookup_mapInsert_other _ _ _ _ hx
  · intro x hx
    exact mapLookup_mapInsert_other _ _ _ _ hx

/-- A concrete statement value used by witnesses. -/
def mkStmt (i name : String) : Statement :=
  { id := i, typ := 1, sourceType := 1, sourceName := name, sourceID := none,
    totalAmount := 100, previousAmount := none, previousPaid := none, previousUnpaid := none,
    currentAmount := none, currency := "USD", paymentDueDate := none, transactions := none }

/-- A concrete persisted state used by the C9 witness. -/
def w9repo : InMemoryRepo :=
  { statements := [("other", mkStmt "other" "bank")], transactions := [] }

/-- Witness for C9 at a concrete state: an unrelated statement key is
untouched and the upserted transaction is stored. -/
theorem C9_upsert_frame_witness :
    mapLookup ((w9repo.UpsertStatement (mkStmt "new" "bank")).statements) "other" =
      mapLookup w9repo.statements "other" ∧
    mapLookup ((w9repo.UpsertTransaction (mkTx "t1" "s")).transactions) "t1" =
      some (mkTx "t1" "s") :=
  ⟨(C9_upsert_frame w9repo (mkStmt "new" "bank") (mkTx "t1" "s")).1.2.1 "other" (by decide),
   (C9_upsert_frame w9repo (mkStmt "new" "bank") (mkTx "t1" "s")).2.1⟩

/-! Claim C8: duplicate ids in the incoming sequence. -/

/-- A payment source used by the C8 counterexample. -/
def w8ps : PaymentSource := { typ := "card", transactionID := "x", statementID := "y" }

/-- First occurrence of the duplicated id. -/
def w8t1 : Transaction :=
  { id := "a", description := "first", amount := 1, date := { unixSec := 0, loc := "UTC" },
    statementID := "s", paymentSource := none }

/-- Last occurrence of the duplicated id, carrying a payment source. -/
def w8t2 : Transaction :=
  { id := "a", description := "second", amount := 2, date := { unixSec := 0, loc := "UTC" },
    statementID := "s", paymentSource := some w8ps }

/-- An empty persisted state for the C8 counterexample. -/
def w8repo : InMemoryRepo := { statements := [], transactions := [] }

/-- C8 counterexample: the sync succeeds, but the transaction persisted
under the duplicated id is not equal to the last occurrence — its
payment_source was cleared by normalization before the upsert. -/
theorem C8_last_occurrence_cex :
    (SyncTransactions inMemoryOps w8repo "s" [w8t1, w8t2]).2 = none ∧
    ¬ mapLookup (SyncTransactions inMemoryOps w8repo "s" [w8t1, w8t2]).1.transactions "a" =
      some w8t2 := by decide

/-- C8 (amended): a sequence with duplicate ids is not rejected, every
occurrence is upserted in caller order, and the single persisted
transaction under the duplicated id is the last occurrence after
transaction normalization, i.e. with payment_source cleared. -/
theorem C8_last_occurrence_normalized (r : InMemoryRepo) (sid x : String)
    (l₁ l₂ : List Transaction) (t : Transaction) (hWF : r.WF)
    (_hdup : x ∈ l₁.map Transaction.id) (ht : t.id = x) (hlast : ∀ u ∈ l₂, u.id ≠ x) :
    (SyncTransactions inMemoryOps r sid (l₁ ++ t :: l₂)).2 = none ∧
    mapLookup (SyncTransactions inMemoryOps r sid (l₁ ++ t :: l₂)).1.transactions x =
      some (normalizedTx t) := by
  constructor
  · rw [sync_inMemory_eq _ _ _ hWF]
  · have hxstale : ¬ x ∈ (staleTransactions r sid (l₁ ++ t :: l₂)).map Transaction.id := by
      intro hmem
      rcases List.mem_map.mp hmem with ⟨c, hc, hcx⟩
      have hnc := (List.mem_filter.mp hc).2
      simp only [decide_eq_true_eq] at hnc
      apply hnc
      rw [hcx]
      exact List.mem_map.mpr ⟨t, List.mem_append_right _ (List.mem_cons_self _ _), ht⟩
    rw [sync_inMemory_eq _ _ _ hWF]
    rw [lookup_applyDeletes_not_mem _ x hxstale]
    exact lookup_applyUpserts_last l₁ l₂ t x ht hlast

/-- Witness for the amended C8 at the concrete duplicate pair. -/
theorem C8_last_occurrence_normalized_witness :
    (SyncTransactions inMemoryOps w8repo "s" ([w8t1] ++ w8t2 :: [])).2 = none ∧
    mapLookup (SyncTransactions inMemoryOps w8repo "s" ([w8t1] ++ w8t2 :: [])).1.transactions
      "a" = some (normalizedTx w8t2) :=
  C8_last_occurrence_normalized w8repo "s" "a" [w8t1] [] w8t2 (by decide) (by decide)
    (by decide) (by decide)

/-! Claim C4: id derivation. -/

/-- C4: on an empty id, GenerateID derives the id with source_id taking
priority over payment_due_date, which takes priority over the random token;
a non-empty id is kept; a successful Normalize uses exactly the id
GenerateID derives; and derivation from a present source_id does not depend
on the random token. -/
theorem C4_generate_id (b : Statement) (fresh fresh' : String) :
    (b.id = "" → ∀ sid, b.sourceID = some sid →
      (b.GenerateID fresh).id = b.sourceName ++ "_" ++ sid) ∧
    (b.id = "" → b.sourceID = none → ∀ d, b.paymentDueDate = some d →
      (b.GenerateID fresh).id = b.sourceName ++ "_" ++ d.utc.formatRFC3339) ∧
    (b.id = "" → b.sourceID = none → b.paymentDueDate = none →
      (b.GenerateID fresh).id = b.sourceName ++ "_" ++ fresh) ∧
    (¬ b.id = "" → b.GenerateID fresh = b) ∧
    (∀ b', Statement.Normalize fresh b = NormResult.ok b' →
      b'.id = (b.GenerateID fresh).id) ∧
    (∀ b2 : Statement, b.id = "" → b2.id = "" → b.sourceName = b2.sourceName →
      ∀ sid, b.sourceID = some sid → b2.sourceID = some sid →
      (b.GenerateID fresh).id = (b2.GenerateID fresh').id) := by
  refine ⟨?_, ?_, ?_, ?_, ?_, ?_⟩
  · intro h sid hs
    simp [Statement.GenerateID, h, hs]
  · intro h hn d hd
    simp [Statement.GenerateID, h, hn, hd]
  · intro h hn hd
    simp [Statement.GenerateID, h, hn, hd]
  · intro h
    simp [Statement.GenerateID, h]
  · intro b' h
    simp only [Statement.Normalize, normalizeTransactionList_eq] at h
    split at h
    · exact NormResult.noConfusion h
    · split at h
      · split at h
        · exact NormResult.noConfusion h
        · injection h with h2
          rw [← h2]
      · injection h with h2
        rw [← h2]
  · intro b2 h1 h2 hn sid hs1 hs2
    simp [Statement.GenerateID, h1, h2, hn, hs1, hs2]

/-- A statement with an empty id and a present source id. -/
def w4a : Statement := { mkStmt "" "bank" with sourceID := some "s1" }

/-- A second statement with the same source name and source id but
different other fields. -/
def w4b : Statement :=
  { mkStmt "" "bank" with
    sourceID := some "s1", currency := "TWD", paymentDueDate := some (GoTime.mk 7 "UTC") }

/-- Witness for C4: the source-id derivation fires (even though w4b also has
a due date) and is independent of the random token. -/
theorem C4_generate_id_witness :
    (w4a.GenerateID "f1").id = "bank" ++ "_" ++ "s1" ∧
    (w4a.GenerateID "f1").id = (w4b.GenerateID "f2").id :=
  ⟨(C4_generate_id w4a "f1" "f2").1 (by decide) "s1" (by decide),
   (C4_generate_id w4a "f1" "f2").2.2.2.2.2 w4b (by decide) (by decide) (by decide)
     "s1" (by decide) (by decide)⟩

/-! Claim C5: statement_id assignment and payment_source stripping. -/

/-- C5: after a successful Normalize, every transaction in the statement
carries the statement's (derived) id and a cleared payment_source,
whatever the input carried in those fields. -/
theorem C5_statement_id_and_payment_source (b b' : Statement) (fresh : String)
    (h : Statement.Normalize fresh b = NormResult.ok b') :
    ∃ ts, b'.transactions = some ts ∧
      ∀ t ∈ ts, t.statementID = b'.id ∧ t.paymentSource = none := by
  simp only [Statement.Normalize, normalizeTransactionList_eq] at h
  split at h
  · exact NormResult.noConfusion h
  · split at h
    · split at h
      · exact NormResult.noConfusion h
      · injection h with h2
        subst h2
        refine ⟨_, rfl, ?_⟩
        intro t ht
        simp only [List.mem_singleton] at ht
        subst ht
        exact ⟨rfl, rfl⟩
    · injection h with h2
      subst h2
      refine ⟨_, rfl, ?_⟩
      intro t ht
      rcases List.mem_map.mp ht with ⟨u, _, hut⟩
      subst hut
      exact ⟨rfl, rfl⟩

/-- Input for the C5 witness: one supplied transaction with a foreign
statement_id. -/
def w5stmt : Statement := { mkStmt "" "bank" with transactions := some [mkTx "t1" "junk"] }

/-- The statement w5stmt normalizes to. -/
def w5res : Statement :=
  { mkStmt "bank_f" "bank" with transactions := some [mkTx "t1" "bank_f"] }

/-- Witness for C5 at the concrete input. -/
theorem C5_statement_id_and_payment_source_witness :
    ∃ ts, w5res.transactions = some ts ∧
      ∀ t ∈ ts, t.statementID = w5res.id ∧ t.paymentSource = none :=
  C5_statement_id_and_payment_source w5stmt w5res "f" (by decide)

/-! Claims C2 and C3: validation and the synthetic transaction, including
the nil payment_due_date panic. -/

/-- The C2 failing input: a statement that passes validation and has no
payment_due_date and no transactions. -/
def w2stmt : Statement := mkStmt "" "bank"

/-- C2: validation fails exactly when source_name is empty, total_amount is
non-positive or currency is empty; but on the failing input — a valid
statement with nil payment_due_date and no transactions — Normalize does
not succeed: it hits the nil-pointer dereference in
b.PaymentDueDate.UTC(), contradicting the never-crashes part of the
claim. -/
theorem C2_validation_iff_and_panic :
    (∀ (b : Statement) (fresh : String),
      Statement.Normalize fresh b =
          NormResult.error "invalid statement: missing required fields" ↔
        (b.sourceName = "" ∨ b.totalAmount ≤ 0 ∨ b.currency = "")) ∧
    Statement.Normalize "tok" w2stmt = NormResult.panic := by
  constructor
  · intro b fresh
    constructor
    · intro h
      by_contra hc
      simp only [Statement.Normalize, normalizeTransactionList_eq, if_neg hc] at h
      split at h
      · split at h
        · exact NormResult.noConfusion h
        · exact NormResult.noConfusion h
      · exact NormResult.noConfusion h
    · intro hc
      simp only [Statement.Normalize, if_pos hc]
  · decide

/-- The C3 failing input: a valid statement with an explicitly empty
transaction list and nil payment_due_date. -/
def w3stmt : Statement :=
  { mkStmt "" "cardco" with totalAmount := 50, currency := "TWD", transactions := some [] }

/-- The same statement with a payment_due_date present. -/
def w3stmtDated : Statement := { w3stmt with paymentDueDate := some (GoTime.mk 86400 "Asia/Taipei") }

/-- The synthetic transaction produced for w3stmtDated. -/
def w3tx : Transaction :=
  { id := "cardco_UTCT86400", description := "Total Amount", amount := 50,
    date := GoTime.mk 86400 "UTC", statementID := "cardco_UTCT86400", paymentSource := none }

/-- What w3stmtDated normalizes to: exactly one synthetic transaction with
the fields the claim lists. -/
def w3res : Statement :=
  { w3stmtDated with
    id := "cardco_UTCT86400"
    transactions := some ([w3tx]) }

/-- C3: on the failing input (valid, empty transaction list, nil
payment_due_date) Normalize panics instead of producing the synthetic
transaction; with the due date present it produces exactly the synthetic
transaction the claim describes. -/
theorem C3_synthetic_transaction :
    Statement.Normalize "tok3" w3stmt = NormResult.panic ∧
    Statement.Normalize "tok3" w3stmtDated = NormResult.ok w3res := ⟨by decide, by rfl⟩

/-! Claim C10: the per-transaction error branch is unreachable. -/

/-- C10: Transaction.Normalize succeeds on every transaction (its only
effect is clearing payment_source), so every error Statement.Normalize
returns is the validation error — the invalid-transaction-at-index branch
is dead code. -/
theorem C10_transaction_error_unreachable (t : Transaction) (b : Statement) (fresh : String) :
    t.Normalize = Except.ok (normalizedTx t) ∧
    (∀ e, Statement.Normalize fresh b = NormResult.error e →
      e = "invalid statement: missing required fields") := by
  refine ⟨Transaction.Normalize_eq t, ?_⟩
  intro e h
  by_cases hc : b.sourceName = "" ∨ b.totalAmount ≤ 0 ∨ b.currency = ""
  · simp only [Statement.Normalize, if_pos hc] at h
    injection h with h2
    exact h2.symm
  · simp only [Statement.Normalize, normalizeTransactionList_eq, if_neg hc] at h
    split at h
    · split at h
      · exact NormResult.noConfusion h
      · exact NormResult.noConfusion h
    · exact NormResult.noConfusion h

/-- Witness for C10 at a concrete transaction and a concrete invalid
statement. -/
theorem C10_transaction_error_unreachable_witness :
    Transaction.Normalize (mkTx "w" "s") = Except.ok (normalizedTx (mkTx "w" "s")) ∧
    "invalid statement: missing required fields" =
      "invalid statement: missing required fields" :=
  ⟨(C10_transaction_error_unreachable (mkTx "w" "s") (mkStmt "" "") "f").1,
   (C10_transaction_error_unreachable (mkTx "w" "s") (mkStmt "" "") "f").2
     "invalid statement: missing required fields" (by decide)⟩

end Finchie
